import Mathlib

/-!
Shallow embedding of `src/numpy_utility.py` (repository GongZhengxin/fwrf)
over exact real arithmetic, together with theorems settling the spec claims.

Numpy arrays are modelled as total functions from indices to ℝ together with
explicit dimension data where a claim talks about shapes; numpy's elementwise
float operations are modelled by the corresponding real operations.  Fallible
operations (Python `assert`, `np.random.randint` with an empty range) are
modelled with `Option`.  The process-wide random source consumed by
`np.random.randint` is modelled by passing the drawn offsets as explicit
arguments constrained to the interval `randint` guarantees.
-/

set_option maxHeartbeats 1000000

noncomputable section

namespace NumpyUtility

/-- Model of `np.arange(start, stop, step)` in exact real arithmetic: the array of
values `start + i*step` for `0 ≤ i < ⌈(stop-start)/step⌉` (length clamped at
zero, as `Nat.ceil` does for a nonpositive argument). -/
def arange (start stop step : ℝ) : List ℝ :=
  (List.range ⌈(stop - start) / step⌉₊).map (fun i : ℕ => start + i * step)

/-- The Gauss error function, `scipy.special.erf`:
`erf x = (2/√π) ∫ t in 0..x, exp (-t²)`. -/
def erf (x : ℝ) : ℝ :=
  (2 / Real.sqrt Real.pi) * ∫ t in (0:ℝ)..x, Real.exp (-t ^ 2)

/-- Value `deg = dtype(n_pix) if size==None else size` in `make_gaussian` and
`make_gaussian_mass`. -/
def deg (n_pix : ℕ) (size : Option ℝ) : ℝ :=
  size.getD n_pix

/-- Spacing `dpix = dtype(deg) / n_pix`. -/
def dpix (n_pix : ℕ) (size : Option ℝ) : ℝ :=
  deg n_pix size / n_pix

/-- Lower bound `pix_min = -deg/2. + 0.5 * dpix`. -/
def pix_min (n_pix : ℕ) (size : Option ℝ) : ℝ :=
  -(deg n_pix size) / 2 + (1 / 2) * dpix n_pix size

/-- Upper bound `pix_max = deg/2.`. -/
def pix_max (n_pix : ℕ) (size : Option ℝ) : ℝ :=
  deg n_pix size / 2

/-- The one-dimensional sample vector
`np.arange(pix_min, pix_max, dpix)` shared by both generators. -/
def gridVals (n_pix : ℕ) (size : Option ℝ) : List ℝ :=
  arange (pix_min n_pix size) (pix_max n_pix size) (dpix n_pix size)

/-- Number of samples per axis actually produced by the `arange` call. -/
def gridLen (n_pix : ℕ) (size : Option ℝ) : ℕ :=
  (gridVals n_pix size).length

/-- Output `Xm` of `np.meshgrid(v, v)`: the first output repeats `v` along rows, so
entry `(i, j)` is `v[j]`. Out-of-range indices default to `0`. -/
def Xm (n_pix : ℕ) (size : Option ℝ) (i j : ℕ) : ℝ :=
  (gridVals n_pix size).getD j 0

/-- Output `Ym` of `np.meshgrid(v, v)`: the second output repeats `v` along columns,
so entry `(i, j)` is `v[i]`. Out-of-range indices default to `0`. -/
def Ym (n_pix : ℕ) (size : Option ℝ) (i j : ℕ) : ℝ :=
  (gridVals n_pix size).getD i 0

/-- The point-sampled field `Zm = dpix**2 * A * np.exp(-((Xm-x)**2 + (-Ym-y)**2) / d)`
with `d = 2*sigma**2` and `A = 1/(d*pi)`, before any renormalization. -/
def pointZ (x y sigma : ℝ) (n_pix : ℕ) (size : Option ℝ) (i j : ℕ) : ℝ :=
  (dpix n_pix size) ^ 2 * (1 / (2 * sigma ^ 2 * Real.pi)) *
    Real.exp (-((Xm n_pix size i j - x) ^ 2 + (-(Ym n_pix size i j) - y) ^ 2) /
      (2 * sigma ^ 2))

/-- Total `np.sum(Zm)` over the full `(gridLen × gridLen)` array. -/
def sumPointZ (x y sigma : ℝ) (n_pix : ℕ) (size : Option ℝ) : ℝ :=
  ∑ i ∈ Finset.range (gridLen n_pix size), ∑ j ∈ Finset.range (gridLen n_pix size),
    pointZ x y sigma n_pix size i j

/-- The `(X, Y, Z)` triple returned by either Gaussian generator. -/
structure GaussResult where
  X : ℕ → ℕ → ℝ
  Y : ℕ → ℕ → ℝ
  Z : ℕ → ℕ → ℝ

/-- Function `make_gaussian(x, y, sigma, n_pix, size)`: point-sampled Gaussian field on
the shared grid, renormalized to unit total iff `sigma < dpix/2`; returns
`(Xm, -Ym, Zm)`. -/
def make_gaussian (x y sigma : ℝ) (n_pix : ℕ) (size : Option ℝ) : GaussResult where
  X := Xm n_pix size
  Y := fun i j => -(Ym n_pix size i j)
  Z := if sigma < dpix n_pix size / 2 then
         fun i j => pointZ x y sigma n_pix size i j / sumPointZ x y sigma n_pix size
       else
         pointZ x y sigma n_pix size

/-- Function `gaussian_mass(xi, yi, dx, dy, x, y, sigma)`: closed-form mass of the 2D
Gaussian over one rectangular cell. -/
def gaussian_mass (xi yi dx dy x y sigma : ℝ) : ℝ :=
  (1 / 4) * (erf ((xi - x + dx / 2) / (Real.sqrt 2 * sigma)) -
             erf ((xi - x - dx / 2) / (Real.sqrt 2 * sigma))) *
            (erf ((yi - y + dy / 2) / (Real.sqrt 2 * sigma)) -
             erf ((yi - y - dy / 2) / (Real.sqrt 2 * sigma)))

/-- Function `make_gaussian_mass(x, y, sigma, n_pix, size)`: if `sigma < dpix` the field
is the vectorized `gaussian_mass` applied to `(Xm, -Ym)`; otherwise the
point-sampled field; returns `(Xm, -Ym, Zm)`. -/
def make_gaussian_mass (x y sigma : ℝ) (n_pix : ℕ) (size : Option ℝ) : GaussResult where
  X := Xm n_pix size
  Y := fun i j => -(Ym n_pix size i j)
  Z := if sigma < dpix n_pix size then
         fun i j => gaussian_mass (Xm n_pix size i j) (-(Ym n_pix size i j))
                      (dpix n_pix size) (dpix n_pix size) x y sigma
       else
         pointZ x y sigma n_pix size

/-- The `(X, Y, Z)` triple returned by the stack wrappers: `Z` has an extra
leading layer index running below `len`. -/
structure StackResult where
  len : ℕ
  X : ℕ → ℕ → ℝ
  Y : ℕ → ℕ → ℝ
  Z : ℕ → ℕ → ℕ → ℝ

/-- Function `make_gaussian_stack(xs, ys, sigmas, n_pix, size)`: asserts
`min(len(xs), len(ys), len(sigmas)) > 0` (modelled as `none` on failure), then
fills layer `i` of a `(stack_size, n_pix, n_pix)` array with the field of
`make_gaussian(xs[i], ys[i], sigmas[i], ...)`, taking the grid from the
`i = 0` call. -/
def make_gaussian_stack (xs ys sigmas : List ℝ) (n_pix : ℕ) (size : Option ℝ) :
    Option StackResult :=
  let stack_size := min (min xs.length ys.length) sigmas.length
  if stack_size = 0 then none
  else some
    { len := stack_size
      X := (make_gaussian (xs.getD 0 0) (ys.getD 0 0) (sigmas.getD 0 0) n_pix size).X
      Y := (make_gaussian (xs.getD 0 0) (ys.getD 0 0) (sigmas.getD 0 0) n_pix size).Y
      Z := fun i => if i < stack_size then
             (make_gaussian (xs.getD i 0) (ys.getD i 0) (sigmas.getD i 0) n_pix size).Z
           else fun _ _ => 0 }

/-- Function `make_gaussian_mass_stack(xs, ys, sigmas, n_pix, size)`: same as
`make_gaussian_stack` with `make_gaussian_mass` as the layer generator. -/
def make_gaussian_mass_stack (xs ys sigmas : List ℝ) (n_pix : ℕ) (size : Option ℝ) :
    Option StackResult :=
  let stack_size := min (min xs.length ys.length) sigmas.length
  if stack_size = 0 then none
  else some
    { len := stack_size
      X := (make_gaussian_mass (xs.getD 0 0) (ys.getD 0 0) (sigmas.getD 0 0) n_pix size).X
      Y := (make_gaussian_mass (xs.getD 0 0) (ys.getD 0 0) (sigmas.getD 0 0) n_pix size).Y
      Z := fun i => if i < stack_size then
             (make_gaussian_mass (xs.getD i 0) (ys.getD i 0) (sigmas.getD i 0) n_pix size).Z
           else fun _ _ => 0 }

/-- A four-dimensional numpy array `(d0, d1, d2, d3)`: explicit dimensions plus
a total entry function. -/
structure Nd4 where
  d0 : ℕ
  d1 : ℕ
  d2 : ℕ
  d3 : ℕ
  data : ℕ → ℕ → ℕ → ℕ → ℝ

/-- A two-dimensional numpy array. -/
structure Nd2 where
  d0 : ℕ
  d1 : ℕ
  data : ℕ → ℕ → ℝ

/-- Function `place_tile_in(tile, new_npx)`: embeds each `dx × dx` tile of the batch
into an otherwise-zero `new_npx × new_npx` canvas at offset
`(pos_x[b], pos_y[b])`.  The offsets drawn by
`np.random.randint(0, max_x, size=batch_size)` (with `max_x = new_npx - dx`)
are passed explicitly; the draw itself raises when `max_x ≤ 0`, modelled as
`none` when `new_npx ≤ dx`. -/
def place_tile_in (tile : Nd4) (new_npx : ℕ) (pos_x pos_y : ℕ → ℕ) : Option Nd4 :=
  let dx := tile.d2
  if new_npx ≤ dx then none
  else some
    { d0 := tile.d0
      d1 := tile.d1
      d2 := new_npx
      d3 := new_npx
      data := fun b f r c =>
        if pos_x b ≤ r ∧ r < pos_x b + dx ∧ pos_y b ≤ c ∧ c < pos_y b + dx then
          tile.data b f (r - pos_x b) (c - pos_y b)
        else 0 }

/-- Minimum of a list of reals, `0` on the empty list (numpy's `np.amin`
raises there; all uses below are on nonempty lists). -/
def listMin : List ℝ → ℝ
  | [] => 0
  | [a] => a
  | a :: b :: rest => min a (listMin (b :: rest))

/-- Maximum of a list of reals, `0` on the empty list. -/
def listMax : List ℝ → ℝ
  | [] => 0
  | [a] => a
  | a :: b :: rest => max a (listMax (b :: rest))

/-- All entries of a `(n, h, w)` batch, flattened in row-major order. -/
def entries (n h w : ℕ) (X : ℕ → ℕ → ℕ → ℝ) : List ℝ :=
  (List.range n).flatMap fun i =>
    (List.range h).flatMap fun r =>
      (List.range w).map fun c => X i r c

/-- Value `np.amin(X)` for a `(n, h, w)` batch. -/
def amin (n h w : ℕ) (X : ℕ → ℕ → ℕ → ℝ) : ℝ :=
  listMin (entries n h w X)

/-- Value `np.amax(X)` for a `(n, h, w)` batch. -/
def amax (n h w : ℕ) (X : ℕ → ℕ → ℕ → ℝ) : ℝ :=
  listMax (entries n h w X)

/-- The divisor `xmax - xmin` of the min-max normalization in `mosaic_vis`. -/
def mosaicDenom (n h w : ℕ) (X : ℕ → ℕ → ℕ → ℝ) : ℝ :=
  amax n h w X - amin n h w X

/-- Value `int(np.ceil(np.sqrt(n)))` in exact arithmetic: the least natural `m` with
`n ≤ m²`. -/
def ceilSqrt (n : ℕ) : ℕ :=
  if n = 0 then 0 else Nat.sqrt (n - 1) + 1

/-- The loop `y = n // x; while x*y < n: y += 1` of `mosaic_vis`.  For `x > 0`
the body runs at most once, since `x*(n//x + 1) > n`; for `x = 0` the loop
guard is reachable only with `n = 0` (then `x = ceilSqrt 0 = 0` and the guard
is false), so the single unrolled step below agrees with the loop on every
input `mosaic_vis` produces. -/
def mosaicRows (n x : ℕ) : ℕ :=
  if x * (n / x) < n then n / x + 1 else n / x

/-- One slice assignment `img[r0:r0+h, c0:c0+w] = s` on a 2-D array modelled
as a function. -/
def writeBlock (img : ℕ → ℕ → ℝ) (r0 c0 h w : ℕ) (s : ℕ → ℕ → ℝ) :
    ℕ → ℕ → ℝ :=
  fun r c =>
    if r0 ≤ r ∧ r < r0 + h ∧ c0 ≤ c ∧ c < c0 + w then s (r - r0) (c - c0)
    else img r c

/-- The tile-placement loop of `mosaic_vis` (3-D branch): starting from the
zero canvas, for `k = 0, …, n-1` write tile `S k` at row offset
`(k//x)*pad + (k//x)*h` and column offset `(k%x)*pad + (k%x)*w`. -/
def layoutFold (n x h w pad : ℕ) (S : ℕ → ℕ → ℕ → ℝ) : ℕ → ℕ → ℝ :=
  (List.range n).foldl
    (fun img k =>
      writeBlock img (k / x * pad + k / x * h) (k % x * pad + k % x * w) h w (S k))
    (fun _ _ => 0)

/-- Function `mosaic_vis(X, pad)` on a `(n, h, w)` batch (the `len(X.shape)==3` branch;
the optional `save_path` side effect is omitted): min-max normalize, choose
`x = int(ceil(sqrt(n)))` columns and `y` rows via the while loop, allocate a
zero image of shape `(h*y+(y-1)*pad, w*x+(x-1)*pad)` and blit the normalized
tiles in row-major order. -/
def mosaic_vis (n h w : ℕ) (X : ℕ → ℕ → ℕ → ℝ) (pad : ℕ) : Nd2 :=
  let xmin := amin n h w X
  let S : ℕ → ℕ → ℕ → ℝ := fun k u v => (X k u v - xmin) / mosaicDenom n h w X
  let x := ceilSqrt n
  let y := mosaicRows n x
  { d0 := h * y + (y - 1) * pad
    d1 := w * x + (x - 1) * pad
    data := layoutFold n x h w pad S }

/-! ## Grid lemmas -/

lemma length_arange (start stop step : ℝ) :
    (arange start stop step).length = ⌈(stop - start) / step⌉₊ := by
  rw [arange, List.length_map, List.length_range]

lemma getD_arange {start stop step : ℝ} {j : ℕ}
    (hj : j < ⌈(stop - start) / step⌉₊) :
    (arange start stop step).getD j 0 = start + j * step := by
  rw [arange, List.getD_eq_getElem?_getD, List.getElem?_map,
    List.getElem?_range hj]
  rfl

lemma deg_eq_dpix_mul {n_pix : ℕ} {size : Option ℝ} (hn : 0 < n_pix) :
    deg n_pix size = dpix n_pix size * n_pix := by
  have hne : (n_pix : ℝ) ≠ 0 := Nat.cast_ne_zero.mpr hn.ne'
  field_simp [dpix]

lemma grid_span_div {n_pix : ℕ} {size : Option ℝ} (hn : 0 < n_pix)
    (hdpix : dpix n_pix size ≠ 0) :
    (pix_max n_pix size - pix_min n_pix size) / dpix n_pix size
      = (n_pix : ℝ) - 1 / 2 := by
  rw [pix_max, pix_min, deg_eq_dpix_mul hn]
  field_simp
  ring

lemma ceil_cast_sub_half {n : ℕ} (hn : 0 < n) : ⌈(n : ℝ) - 1 / 2⌉₊ = n := by
  rw [Nat.ceil_eq_iff hn.ne']
  rw [Nat.cast_pred hn]
  constructor
  · linarith
  · linarith

lemma gridLen_eq {n_pix : ℕ} {size : Option ℝ} (hn : 0 < n_pix)
    (hdpix : dpix n_pix size ≠ 0) : gridLen n_pix size = n_pix := by
  rw [gridLen, gridVals, length_arange, grid_span_div hn hdpix,
    ceil_cast_sub_half hn]

lemma gridVals_getD {n_pix : ℕ} {size : Option ℝ} (hn : 0 < n_pix)
    (hdpix : dpix n_pix size ≠ 0) {j : ℕ} (hj : j < n_pix) :
    (gridVals n_pix size).getD j 0
      = pix_min n_pix size + j * dpix n_pix size := by
  rw [gridVals]
  apply getD_arange
  rw [grid_span_div hn hdpix, ceil_cast_sub_half hn]
  exact hj

lemma dpix_pos {n_pix : ℕ} {size : Option ℝ} (hn : 0 < n_pix)
    (hdeg : 0 < deg n_pix size) : 0 < dpix n_pix size :=
  div_pos hdeg (
    Nat.cast_pos.mpr hn)

lemma pointZ_pos {x y sigma : ℝ} {n_pix : ℕ} {size : Option ℝ}
    (hs : 0 < sigma) (hdpix : dpix n_pix size ≠ 0) (i j : ℕ) :
    0 < pointZ x y sigma n_pix size i j := by
  have h1 : 0 < dpix n_pix size ^ 2 := by positivity
  have h2 : 0 < 2 * sigma ^ 2 * Real.pi :=
    mul_pos (mul_pos two_pos (pow_pos hs 2)) Real.pi_pos
  have h3 : (0:ℝ) < 1 / (2 * sigma ^ 2 * Real.pi) := by positivity
  exact mul_pos (mul_pos h1 h3) (Real.exp_pos _)

lemma sumPointZ_pos {x y sigma : ℝ} {n_pix : ℕ} {size : Option ℝ}
    (hn : 0 < n_pix) (hs : 0 < sigma) (hdpix : dpix n_pix size ≠ 0) :
    0 < sumPointZ x y sigma n_pix size := by
  have hL : gridLen n_pix size = n_pix := gridLen_eq hn hdpix
  rw [sumPointZ]
  apply Finset.sum_pos
  · intro i _
    apply Finset.sum_pos
    · intro j _
      exact pointZ_pos hs hdpix i j
    · rw [hL]
      exact Finset.nonempty_range_iff.mpr hn.ne'
  · rw [hL]
    exact Finset.nonempty_range_iff.mpr hn.ne'

/-! ## Claim theorems: Gaussian generators -/

/-- C1: the function `make_gaussian_mass` selects its algorithm by the threshold
`sigma < dpix`: below the threshold every cell `(xi, yi)` carries the
closed-form pixel-integrated mass
`0.25·[erf((xi-x+dpix/2)/(√2·σ)) - erf((xi-x-dpix/2)/(√2·σ))]·[erf((yi-y+dpix/2)/(√2·σ)) - erf((yi-y-dpix/2)/(√2·σ))]`,
and at or above it every cell carries the point-sampled approximation
`dpix²·(1/(2π σ²))·exp(-((xi-x)²+(yi-y)²)/(2σ²))`. -/
theorem C1_mass_branch_selection (x y sigma : ℝ) (n_pix : ℕ) (size : Option ℝ)
    (hs : 0 < sigma) (hn : 0 < n_pix) :
    (sigma < dpix n_pix size →
      ∀ i j, (make_gaussian_mass x y sigma n_pix size).Z i j
        = (1/4) *
          (erf (((make_gaussian_mass x y sigma n_pix size).X i j - x
                  + dpix n_pix size / 2) / (Real.sqrt 2 * sigma)) -
           erf (((make_gaussian_mass x y sigma n_pix size).X i j - x
                  - dpix n_pix size / 2) / (Real.sqrt 2 * sigma))) *
          (erf (((make_gaussian_mass x y sigma n_pix size).Y i j - y
                  + dpix n_pix size / 2) / (Real.sqrt 2 * sigma)) -
           erf (((make_gaussian_mass x y sigma n_pix size).Y i j - y
                  - dpix n_pix size / 2) / (Real.sqrt 2 * sigma)))) ∧
    (dpix n_pix size ≤ sigma →
      ∀ i j, (make_gaussian_mass x y sigma n_pix size).Z i j
        = dpix n_pix size ^ 2 * (1 / (2 * Real.pi * sigma ^ 2)) *
          Real.exp (-(((make_gaussian_mass x y sigma n_pix size).X i j - x) ^ 2
            + ((make_gaussian_mass x y sigma n_pix size).Y i j - y) ^ 2)
            / (2 * sigma ^ 2))) := by
  constructor
  · intro hlt i j
    simp only [make_gaussian_mass, if_pos hlt, gaussian_mass]
  · intro hge i j
    simp only [make_gaussian_mass, if_neg (not_lt.mpr hge), pointZ]
    ring_nf

theorem C1_mass_branch_selection_witness :
    (0:ℝ) < 1 ∧ 0 < 2 ∧
    (dpix 2 none ≤ (1:ℝ) →
      ∀ i j, (make_gaussian_mass 0 0 1 2 none).Z i j
        = dpix 2 none ^ 2 * (1 / (2 * Real.pi * (1:ℝ) ^ 2)) *
          Real.exp (-(((make_gaussian_mass 0 0 1 2 none).X i j - 0) ^ 2
            + ((make_gaussian_mass 0 0 1 2 none).Y i j - 0) ^ 2)
            / (2 * (1:ℝ) ^ 2))) :=
  ⟨by norm_num, by norm_num,
    (C1_mass_branch_selection 0 0 1 2 none (by norm_num) (by norm_num)).2⟩

/-- C2: the function `make_gaussian` renormalizes exactly when `0 < sigma < dpix/2`: there
the returned field is the point-sampled field divided by its own total, so its
entries sum to exactly 1; for `sigma ≥ dpix/2` no renormalization happens. -/
theorem C2_renormalization (x y : ℝ) (n_pix : ℕ) (size : Option ℝ)
    (hn : 0 < n_pix) :
    (∀ sigma : ℝ, 0 < sigma → sigma < dpix n_pix size / 2 →
      (make_gaussian x y sigma n_pix size).Z
        = (fun i j => pointZ x y sigma n_pix size i j /
            sumPointZ x y sigma n_pix size) ∧
      ∑ i ∈ Finset.range (gridLen n_pix size),
        ∑ j ∈ Finset.range (gridLen n_pix size),
          (make_gaussian x y sigma n_pix size).Z i j = 1) ∧
    (∀ sigma : ℝ, dpix n_pix size / 2 ≤ sigma →
      (make_gaussian x y sigma n_pix size).Z = pointZ x y sigma n_pix size) := by
  constructor
  · intro sigma hs hlt
    have hdpix : (0:ℝ) < dpix n_pix size := by linarith
    have hZ : (make_gaussian x y sigma n_pix size).Z
        = fun i j => pointZ x y sigma n_pix size i j /
            sumPointZ x y sigma n_pix size := by
      simp only [make_gaussian, if_pos hlt]
    refine ⟨hZ, ?_⟩
    have hsum : 0 < sumPointZ x y sigma n_pix size :=
      sumPointZ_pos hn hs hdpix.ne'
    rw [hZ]
    simp only [← Finset.sum_div]
    rw [← sumPointZ, div_self hsum.ne']
  · intro sigma hge
    simp only [make_gaussian, if_neg (not_lt.mpr hge)]

theorem C2_renormalization_witness :
    0 < 2 ∧
    ((0:ℝ) < 1/4 ∧ (1:ℝ)/4 < dpix 2 none / 2 ∧
      ∑ i ∈ Finset.range (gridLen 2 none),
        ∑ j ∈ Finset.range (gridLen 2 none),
          (make_gaussian 0 0 (1/4) 2 none).Z i j = 1) := by
  have hd : dpix 2 none = 1 := by
    norm_num [dpix, deg]
  refine ⟨by norm_num, by norm_num, by rw [hd]; norm_num, ?_⟩
  exact ((C2_renormalization 0 0 2 none (by norm_num)).1 (1/4) (by norm_num)
    (by rw [hd]; norm_num)).2

/-- C3: the shared coordinate grid has exactly `n_pix` samples per axis,
starting at `-deg/2 + dpix/2` and stepping by `dpix`, symmetric about zero;
the returned `X` is constant along rows and strictly increasing along
columns, and the returned second output is constant along columns and
strictly decreasing with increasing row index; `make_gaussian_mass` uses the
identical grid. -/
theorem C3_grid_structure (x y sigma : ℝ) (n_pix : ℕ) (size : Option ℝ)
    (hn : 0 < n_pix) (hdeg : 0 < deg n_pix size) :
    gridLen n_pix size = n_pix ∧
    (∀ j, j < n_pix → (gridVals n_pix size).getD j 0
        = (-(deg n_pix size) / 2 + dpix n_pix size / 2)
          + j * dpix n_pix size) ∧
    (∀ j, j < n_pix → (gridVals n_pix size).getD (n_pix - 1 - j) 0
        = -((gridVals n_pix size).getD j 0)) ∧
    (∀ i i' j, (make_gaussian x y sigma n_pix size).X i j
        = (make_gaussian x y sigma n_pix size).X i' j) ∧
    (∀ i j j', j < j' → j' < n_pix →
      (make_gaussian x y sigma n_pix size).X i j
        < (make_gaussian x y sigma n_pix size).X i j') ∧
    (∀ i j j', (make_gaussian x y sigma n_pix size).Y i j
        = (make_gaussian x y sigma n_pix size).Y i j') ∧
    (∀ i i' j, i < i' → i' < n_pix →
      (make_gaussian x y sigma n_pix size).Y i' j
        < (make_gaussian x y sigma n_pix size).Y i j) ∧
    (make_gaussian_mass x y sigma n_pix size).X
        = (make_gaussian x y sigma n_pix size).X ∧
    (make_gaussian_mass x y sigma n_pix size).Y
        = (make_gaussian x y sigma n_pix size).Y := by
  have hdpix : 0 < dpix n_pix size := dpix_pos hn hdeg
  have hget : ∀ j, j < n_pix → (gridVals n_pix size).getD j 0
      = pix_min n_pix size + j * dpix n_pix size :=
    fun j hj => gridVals_getD hn hdpix.ne' hj
  refine ⟨gridLen_eq hn hdpix.ne', ?_, ?_, ?_, ?_, ?_, ?_, rfl, rfl⟩
  · intro j hj
    rw [hget j hj, pix_min]
    ring
  · intro j hj
    rw [hget j hj, hget (n_pix - 1 - j) (by omega)]
    have hc : ((n_pix - 1 - j : ℕ) : ℝ) = (n_pix : ℝ) - 1 - j := by
      have h1 : n_pix - 1 - j = n_pix - (j + 1) := by omega
      rw [h1, Nat.cast_sub (by omega)]
      push_cast
      ring
    rw [hc, pix_min, deg_eq_dpix_mul hn]
    ring
  · intro i i' j
    rfl
  · intro i j j' hjj hj'
    show Xm n_pix size i j < Xm n_pix size i j'
    rw [Xm, Xm, hget j (by omega), hget j' hj']
    have : (j : ℝ) < j' := Nat.cast_lt.mpr hjj
    nlinarith
  · intro i j j'
    rfl
  · intro i i' j hii hi'
    show -(Ym n_pix size i' j) < -(Ym n_pix size i j)
    rw [Ym, Ym, hget i (by omega), hget i' hi']
    have : (i : ℝ) < i' := Nat.cast_lt.mpr hii
    nlinarith

theorem C3_grid_structure_witness :
    0 < 2 ∧ (0:ℝ) < deg 2 none ∧ gridLen 2 none = 2 :=
  ⟨by norm_num, by norm_num [deg],
    (C3_grid_structure 0 0 1 2 none (by norm_num) (by norm_num [deg])).1⟩

/-- C6: for `sigma ≥ dpix` the fallback branch of `make_gaussian_mass`
returns exactly the same `(X, Y, Z)` triple as `make_gaussian` — the
renormalization branch of the latter is unreachable since
`sigma ≥ dpix > dpix/2`. -/
theorem C6_mass_fallback_eq_gaussian (x y sigma : ℝ) (n_pix : ℕ)
    (size : Option ℝ) (hn : 0 < n_pix) (hdeg : 0 < deg n_pix size)
    (hs : dpix n_pix size ≤ sigma) :
    make_gaussian_mass x y sigma n_pix size
      = make_gaussian x y sigma n_pix size := by
  have hdpix : 0 < dpix n_pix size := dpix_pos hn hdeg
  have h1 : ¬ sigma < dpix n_pix size := not_lt.mpr hs
  have h2 : ¬ sigma < dpix n_pix size / 2 := not_lt.mpr (by linarith)
  simp only [make_gaussian_mass, make_gaussian, if_neg h1, if_neg h2]

theorem C6_mass_fallback_eq_gaussian_witness :
    0 < 2 ∧ (0:ℝ) < deg 2 none ∧ dpix 2 none ≤ (1:ℝ) ∧
    make_gaussian_mass 0 0 1 2 none = make_gaussian 0 0 1 2 none :=
  ⟨by norm_num, by norm_num [deg], by norm_num [dpix, deg],
    C6_mass_fallback_eq_gaussian 0 0 1 2 none (by norm_num)
      (by norm_num [deg]) (by norm_num [dpix, deg])⟩

/-- C10: the grid outputs of both generators do not depend on the Gaussian
parameters `(x, y, sigma)` — they are a function of `n_pix` and `size`
alone. -/
theorem C10_grid_parameter_independent (x y sigma x' y' sigma' : ℝ)
    (n_pix : ℕ) (size : Option ℝ) :
    (make_gaussian x y sigma n_pix size).X
        = (make_gaussian x' y' sigma' n_pix size).X ∧
    (make_gaussian x y sigma n_pix size).Y
        = (make_gaussian x' y' sigma' n_pix size).Y ∧
    (make_gaussian_mass x y sigma n_pix size).X
        = (make_gaussian_mass x' y' sigma' n_pix size).X ∧
    (make_gaussian_mass x y sigma n_pix size).Y
        = (make_gaussian_mass x' y' sigma' n_pix size).Y :=
  ⟨rfl, rfl, rfl, rfl⟩

/-! ## Claim theorems: stack wrappers -/

lemma make_gaussian_stack_eq (xs ys sigmas : List ℝ) (n_pix : ℕ)
    (size : Option ℝ) (h : min (min xs.length ys.length) sigmas.length ≠ 0) :
    make_gaussian_stack xs ys sigmas n_pix size = some
      { len := min (min xs.length ys.length) sigmas.length
        X := (make_gaussian (xs.getD 0 0) (ys.getD 0 0) (sigmas.getD 0 0)
                n_pix size).X
        Y := (make_gaussian (xs.getD 0 0) (ys.getD 0 0) (sigmas.getD 0 0)
                n_pix size).Y
        Z := fun i => if i < min (min xs.length ys.length) sigmas.length then
               (make_gaussian (xs.getD i 0) (ys.getD i 0) (sigmas.getD i 0)
                 n_pix size).Z
             else fun _ _ => 0 } := by
  simp only [make_gaussian_stack]
  rw [if_neg h]

lemma make_gaussian_mass_stack_eq (xs ys sigmas : List ℝ) (n_pix : ℕ)
    (size : Option ℝ) (h : min (min xs.length ys.length) sigmas.length ≠ 0) :
    make_gaussian_mass_stack xs ys sigmas n_pix size = some
      { len := min (min xs.length ys.length) sigmas.length
        X := (make_gaussian_mass (xs.getD 0 0) (ys.getD 0 0) (sigmas.getD 0 0)
                n_pix size).X
        Y := (make_gaussian_mass (xs.getD 0 0) (ys.getD 0 0) (sigmas.getD 0 0)
                n_pix size).Y
        Z := fun i => if i < min (min xs.length ys.length) sigmas.length then
               (make_gaussian_mass (xs.getD i 0) (ys.getD i 0) (sigmas.getD i 0)
                 n_pix size).Z
             else fun _ _ => 0 } := by
  simp only [make_gaussian_mass_stack]
  rw [if_neg h]

/-- C4: on non-empty inputs each stack wrapper returns `some` stack whose
layer `i` (for `i` below the minimum input length, in input order) is the
field of the single-instance generator on `(xs[i], ys[i], sigmas[i])`, with
the grid of the single-instance call; in particular the singleton stacks
equal the single-instance results broadcast into a length-1 stack. -/
theorem C4_stack_refines_single (xs ys sigmas : List ℝ) (n_pix : ℕ)
    (size : Option ℝ)
    (h : 0 < min (min xs.length ys.length) sigmas.length) :
    (∃ s, make_gaussian_stack xs ys sigmas n_pix size = some s ∧
      s.len = min (min xs.length ys.length) sigmas.length ∧
      (∀ i, i < s.len → s.Z i
        = (make_gaussian (xs.getD i 0) (ys.getD i 0) (sigmas.getD i 0)
            n_pix size).Z) ∧
      s.X = (make_gaussian (xs.getD 0 0) (ys.getD 0 0) (sigmas.getD 0 0)
              n_pix size).X ∧
      s.Y = (make_gaussian (xs.getD 0 0) (ys.getD 0 0) (sigmas.getD 0 0)
              n_pix size).Y) ∧
    (∃ s, make_gaussian_mass_stack xs ys sigmas n_pix size = some s ∧
      s.len = min (min xs.length ys.length) sigmas.length ∧
      (∀ i, i < s.len → s.Z i
        = (make_gaussian_mass (xs.getD i 0) (ys.getD i 0) (sigmas.getD i 0)
            n_pix size).Z) ∧
      s.X = (make_gaussian_mass (xs.getD 0 0) (ys.getD 0 0) (sigmas.getD 0 0)
              n_pix size).X ∧
      s.Y = (make_gaussian_mass (xs.getD 0 0) (ys.getD 0 0) (sigmas.getD 0 0)
              n_pix size).Y) ∧
    (∀ x0 y0 s0 : ℝ, ∃ s,
      make_gaussian_stack [x0] [y0] [s0] n_pix size = some s ∧
      s.len = 1 ∧
      s.Z 0 = (make_gaussian x0 y0 s0 n_pix size).Z ∧
      s.X = (make_gaussian x0 y0 s0 n_pix size).X ∧
      s.Y = (make_gaussian x0 y0 s0 n_pix size).Y) ∧
    (∀ x0 y0 s0 : ℝ, ∃ s,
      make_gaussian_mass_stack [x0] [y0] [s0] n_pix size = some s ∧
      s.len = 1 ∧
      s.Z 0 = (make_gaussian_mass x0 y0 s0 n_pix size).Z ∧
      s.X = (make_gaussian_mass x0 y0 s0 n_pix size).X ∧
      s.Y = (make_gaussian_mass x0 y0 s0 n_pix size).Y) := by
  refine ⟨⟨_, make_gaussian_stack_eq xs ys sigmas n_pix size h.ne', rfl,
      ?_, rfl, rfl⟩,
    ⟨_, make_gaussian_mass_stack_eq xs ys sigmas n_pix size h.ne', rfl,
      ?_, rfl, rfl⟩, ?_, ?_⟩
  · intro i hi
    exact if_pos hi
  · intro i hi
    exact if_pos hi
  · intro x0 y0 s0
    refine ⟨_, make_gaussian_stack_eq [x0] [y0] [s0] n_pix size (by simp),
      by simp, by simp, rfl, rfl⟩
  · intro x0 y0 s0
    refine ⟨_, make_gaussian_mass_stack_eq [x0] [y0] [s0] n_pix size (by simp),
      by simp, by simp, rfl, rfl⟩

theorem C4_stack_refines_single_witness :
    0 < min (min [(0:ℝ)].length [(0:ℝ)].length) [(1:ℝ)].length ∧
    (∃ s, make_gaussian_stack [(0:ℝ)] [(0:ℝ)] [(1:ℝ)] 2 none = some s ∧
      s.len = min (min [(0:ℝ)].length [(0:ℝ)].length) [(1:ℝ)].length ∧
      (∀ i, i < s.len → s.Z i
        = (make_gaussian ([(0:ℝ)].getD i 0) ([(0:ℝ)].getD i 0)
            ([(1:ℝ)].getD i 0) 2 none).Z) ∧
      s.X = (make_gaussian ([(0:ℝ)].getD 0 0) ([(0:ℝ)].getD 0 0)
              ([(1:ℝ)].getD 0 0) 2 none).X ∧
      s.Y = (make_gaussian ([(0:ℝ)].getD 0 0) ([(0:ℝ)].getD 0 0)
              ([(1:ℝ)].getD 0 0) 2 none).Y) :=
  ⟨by simp,
    (C4_stack_refines_single [(0:ℝ)] [(0:ℝ)] [(1:ℝ)] 2 none (by simp)).1⟩

/-- C5: both stack wrappers build a stack of length
`min(len(xs), len(ys), len(sigmas))` and fail via the assertion (modelled as
`none`, no partial result) exactly when that minimum is zero. -/
theorem C5_stack_length_and_assert (xs ys sigmas : List ℝ) (n_pix : ℕ)
    (size : Option ℝ) :
    (make_gaussian_stack xs ys sigmas n_pix size = none
      ↔ min (min xs.length ys.length) sigmas.length = 0) ∧
    (∀ s, make_gaussian_stack xs ys sigmas n_pix size = some s →
      s.len = min (min xs.length ys.length) sigmas.length) ∧
    (make_gaussian_mass_stack xs ys sigmas n_pix size = none
      ↔ min (min xs.length ys.length) sigmas.length = 0) ∧
    (∀ s, make_gaussian_mass_stack xs ys sigmas n_pix size = some s →
      s.len = min (min xs.length ys.length) sigmas.length) := by
  by_cases h : min (min xs.length ys.length) sigmas.length = 0
  · refine ⟨⟨fun _ => h, fun _ => ?_⟩, fun s hs => ?_, ⟨fun _ => h, fun _ => ?_⟩,
      fun s hs => ?_⟩
    · simp only [make_gaussian_stack]
      rw [if_pos h]
    · rw [make_gaussian_stack] at hs
      rw [if_pos h] at hs
      exact absurd hs (by simp)
    · simp only [make_gaussian_mass_stack]
      rw [if_pos h]
    · rw [make_gaussian_mass_stack] at hs
      rw [if_pos h] at hs
      exact absurd hs (by simp)
  · refine ⟨⟨fun hnone => ?_, fun h0 => absurd h0 h⟩, fun s hs => ?_,
      ⟨fun hnone => ?_, fun h0 => absurd h0 h⟩, fun s hs => ?_⟩
    · rw [make_gaussian_stack_eq xs ys sigmas n_pix size h] at hnone
      exact absurd hnone (by simp)
    · rw [make_gaussian_stack_eq xs ys sigmas n_pix size h] at hs
      injection hs with hs
      rw [← hs]
    · rw [make_gaussian_mass_stack_eq xs ys sigmas n_pix size h] at hnone
      exact absurd hnone (by simp)
    · rw [make_gaussian_mass_stack_eq xs ys sigmas n_pix size h] at hs
      injection hs with hs
      rw [← hs]

theorem C5_stack_length_and_assert_witness :
    make_gaussian_stack [] [] [] 1 none = none :=
  (C5_stack_length_and_assert [] [] [] 1 none).1.mpr rfl

/-! ## Claim theorems: tile placement -/

/-- C7: the function `place_tile_in` embeds each tile of the batch unchanged into a
zero-filled `new_npx × new_npx` canvas at a per-batch-element offset bounded
by `new_npx - dx - 1`, zero outside the block; for `new_npx ≤ dx` the
offset draw fails. -/
theorem C7_place_tile_in_spec (tile : Nd4) (new_npx : ℕ)
    (pos_x pos_y : ℕ → ℕ) :
    (new_npx ≤ tile.d2 → place_tile_in tile new_npx pos_x pos_y = none) ∧
    (tile.d2 < new_npx →
      (∀ b, b < tile.d0 →
        pos_x b < new_npx - tile.d2 ∧ pos_y b < new_npx - tile.d2) →
      ∃ A, place_tile_in tile new_npx pos_x pos_y = some A ∧
        A.d0 = tile.d0 ∧ A.d1 = tile.d1 ∧ A.d2 = new_npx ∧ A.d3 = new_npx ∧
        ∀ b, b < tile.d0 →
          ∃ px py, px ≤ new_npx - tile.d2 - 1 ∧ py ≤ new_npx - tile.d2 - 1 ∧
            (∀ f u v, u < tile.d2 → v < tile.d2 →
              A.data b f (px + u) (py + v) = tile.data b f u v) ∧
            (∀ f r c,
              ¬(px ≤ r ∧ r < px + tile.d2 ∧ py ≤ c ∧ c < py + tile.d2) →
              A.data b f r c = 0)) := by
  constructor
  · intro hle
    simp only [place_tile_in]
    rw [if_pos hle]
  · intro hlt hpos
    have hsome : place_tile_in tile new_npx pos_x pos_y = some
        { d0 := tile.d0, d1 := tile.d1, d2 := new_npx, d3 := new_npx
          data := fun b f r c =>
            if pos_x b ≤ r ∧ r < pos_x b + tile.d2 ∧ pos_y b ≤ c ∧
                c < pos_y b + tile.d2 then
              tile.data b f (r - pos_x b) (c - pos_y b)
            else 0 } := by
      simp only [place_tile_in]
      rw [if_neg (not_le.mpr hlt)]
    refine ⟨_, hsome, rfl, rfl, rfl, rfl, ?_⟩
    intro b hb
    obtain ⟨hx, hy⟩ := hpos b hb
    refine ⟨pos_x b, pos_y b, by omega, by omega, ?_, ?_⟩
    · intro f u v hu hv
      show (if pos_x b ≤ pos_x b + u ∧ pos_x b + u < pos_x b + tile.d2 ∧
            pos_y b ≤ pos_y b + v ∧ pos_y b + v < pos_y b + tile.d2 then
              tile.data b f (pos_x b + u - pos_x b) (pos_y b + v - pos_y b)
            else 0) = tile.data b f u v
      rw [if_pos (by omega), Nat.add_sub_cancel_left, Nat.add_sub_cancel_left]
    · intro f r c hout
      show (if pos_x b ≤ r ∧ r < pos_x b + tile.d2 ∧ pos_y b ≤ c ∧
            c < pos_y b + tile.d2 then
              tile.data b f (r - pos_x b) (c - pos_y b)
            else 0) = 0
      rw [if_neg hout]

theorem C7_place_tile_in_spec_witness :
    (⟨1, 1, 1, 1, fun _ _ _ _ => (5:ℝ)⟩ : Nd4).d2 < 2 ∧
    (∃ A, place_tile_in ⟨1, 1, 1, 1, fun _ _ _ _ => (5:ℝ)⟩ 2
        (fun _ => 0) (fun _ => 0) = some A ∧
      A.d0 = (⟨1, 1, 1, 1, fun _ _ _ _ => (5:ℝ)⟩ : Nd4).d0 ∧
      A.d1 = (⟨1, 1, 1, 1, fun _ _ _ _ => (5:ℝ)⟩ : Nd4).d1 ∧
      A.d2 = 2 ∧ A.d3 = 2 ∧
      ∀ b, b < (⟨1, 1, 1, 1, fun _ _ _ _ => (5:ℝ)⟩ : Nd4).d0 →
        ∃ px py,
          px ≤ 2 - (⟨1, 1, 1, 1, fun _ _ _ _ => (5:ℝ)⟩ : Nd4).d2 - 1 ∧
          py ≤ 2 - (⟨1, 1, 1, 1, fun _ _ _ _ => (5:ℝ)⟩ : Nd4).d2 - 1 ∧
          (∀ f u v, u < (⟨1, 1, 1, 1, fun _ _ _ _ => (5:ℝ)⟩ : Nd4).d2 →
            v < (⟨1, 1, 1, 1, fun _ _ _ _ => (5:ℝ)⟩ : Nd4).d2 →
            A.data b f (px + u) (py + v)
              = (⟨1, 1, 1, 1, fun _ _ _ _ => (5:ℝ)⟩ : Nd4).data b f u v) ∧
          (∀ f r c,
            ¬(px ≤ r ∧ r < px + (⟨1, 1, 1, 1, fun _ _ _ _ => (5:ℝ)⟩ : Nd4).d2 ∧
              py ≤ c ∧ c < py + (⟨1, 1, 1, 1, fun _ _ _ _ => (5:ℝ)⟩ : Nd4).d2) →
            A.data b f r c = 0)) :=
  ⟨by decide,
    (C7_place_tile_in_spec ⟨1, 1, 1, 1, fun _ _ _ _ => (5:ℝ)⟩ 2
      (fun _ => 0) (fun _ => 0)).2 (by decide)
      (fun b _ => ⟨by decide, by decide⟩)⟩

/-! ## List extrema lemmas -/

lemma listMin_le {v : ℝ} : ∀ {l : List ℝ}, v ∈ l → listMin l ≤ v
  | [a], hv => by
      rcases List.mem_singleton.mp hv with rfl
      exact le_of_eq rfl
  | a :: b :: rest, hv => by
      show min a (listMin (b :: rest)) ≤ v
      rcases List.mem_cons.mp hv with rfl | hv'
      · exact min_le_left _ _
      · exact le_trans (min_le_right _ _) (listMin_le hv')

lemma le_listMax {v : ℝ} : ∀ {l : List ℝ}, v ∈ l → v ≤ listMax l
  | [a], hv => by
      rcases List.mem_singleton.mp hv with rfl
      exact le_of_eq rfl
  | a :: b :: rest, hv => by
      show v ≤ max a (listMax (b :: rest))
      rcases List.mem_cons.mp hv with rfl | hv'
      · exact le_max_left _ _
      · exact le_trans (le_listMax hv') (le_max_right _ _)

lemma listMin_const (c : ℝ) :
    ∀ (l : List ℝ), l ≠ [] → (∀ v ∈ l, v = c) → listMin l = c := by
  intro l
  induction l with
  | nil => intro hne; exact absurd rfl hne
  | cons a t ih =>
    intro _ hall
    cases t with
    | nil =>
      show a = c
      exact hall a (by simp)
    | cons b r =>
      show min a (listMin (b :: r)) = c
      rw [hall a (by simp), ih (by simp) (fun v hv => hall v (by simp [hv]))]
      exact min_self c

lemma listMax_const (c : ℝ) :
    ∀ (l : List ℝ), l ≠ [] → (∀ v ∈ l, v = c) → listMax l = c := by
  intro l
  induction l with
  | nil => intro hne; exact absurd rfl hne
  | cons a t ih =>
    intro _ hall
    cases t with
    | nil =>
      show a = c
      exact hall a (by simp)
    | cons b r =>
      show max a (listMax (b :: r)) = c
      rw [hall a (by simp), ih (by simp) (fun v hv => hall v (by simp [hv]))]
      exact max_self c

lemma mem_entries {n h w : ℕ} (X : ℕ → ℕ → ℕ → ℝ) {i r c : ℕ}
    (hi : i < n) (hr : r < h) (hc : c < w) : X i r c ∈ entries n h w X := by
  simp only [entries, List.mem_flatMap, List.mem_map, List.mem_range]
  exact ⟨i, hi, r, hr, c, hc, rfl⟩

lemma entries_cases {n h w : ℕ} {X : ℕ → ℕ → ℕ → ℝ} {v : ℝ}
    (hv : v ∈ entries n h w X) :
    ∃ i r c, i < n ∧ r < h ∧ c < w ∧ X i r c = v := by
  simp only [entries, List.mem_flatMap, List.mem_map, List.mem_range] at hv
  obtain ⟨i, hi, r, hr, c, hc, hval⟩ := hv
  exact ⟨i, r, c, hi, hr, hc, hval⟩

/-- C9: the min-max normalization in `mosaic_vis` is unguarded: on any batch
whose pixel values are all equal, the divisor `xmax - xmin` of the
normalization is zero, so the division-by-zero case is reachable. -/
theorem C9_mosaic_divisor_zero (n h w : ℕ) (X : ℕ → ℕ → ℕ → ℝ)
    (hn : 0 < n) (hh : 0 < h) (hw : 0 < w)
    (hconst : ∀ i r c, i < n → r < h → c < w → X i r c = X 0 0 0) :
    mosaicDenom n h w X = 0 := by
  have hne : entries n h w X ≠ [] :=
    List.ne_nil_of_mem (mem_entries X hn hh hw)
  have hall : ∀ v ∈ entries n h w X, v = X 0 0 0 := by
    intro v hv
    obtain ⟨i, r, c, hi, hr, hc, hval⟩ := entries_cases hv
    rw [← hval]
    exact hconst i r c hi hr hc
  rw [mosaicDenom, amax, amin, listMax_const (X 0 0 0) _ hne hall,
    listMin_const (X 0 0 0) _ hne hall, sub_self]

theorem C9_mosaic_divisor_zero_witness :
    0 < 1 ∧ mosaicDenom 1 1 1 (fun _ _ _ => (3:ℝ)) = 0 :=
  ⟨by decide,
    C9_mosaic_divisor_zero 1 1 1 (fun _ _ _ => (3:ℝ)) (by decide) (by decide)
      (by decide) (fun _ _ _ _ _ _ => rfl)⟩

/-! ## Mosaic layout lemmas -/

lemma ceilSqrt_pos {n : ℕ} (hn : 0 < n) : 0 < ceilSqrt n := by
  rw [ceilSqrt, if_neg hn.ne']
  omega

lemma ceilSqrt_spec {n : ℕ} (hn : 0 < n) :
    n ≤ ceilSqrt n ^ 2 ∧ ∀ m, n ≤ m ^ 2 → ceilSqrt n ≤ m := by
  rw [ceilSqrt, if_neg hn.ne']
  constructor
  · have h2 : n - 1 < (Nat.sqrt (n - 1) + 1) * (Nat.sqrt (n - 1) + 1) :=
      Nat.lt_succ_sqrt (n - 1)
    rw [pow_two]
    omega
  · intro m hm
    have h3 : n - 1 < m ^ 2 := by omega
    have h4 : Nat.sqrt (n - 1) < m := Nat.sqrt_lt'.mpr h3
    omega

lemma mosaicRows_spec {n x : ℕ} (hx : 0 < x) :
    n ≤ x * mosaicRows n x ∧ ∀ m, n ≤ x * m → mosaicRows n x ≤ m := by
  have hdm := Nat.div_add_mod n x
  have hmod : n % x < x := Nat.mod_lt n hx
  rw [mosaicRows]
  by_cases hc : x * (n / x) < n
  · rw [if_pos hc]
    constructor
    · have hlt : n < x * (n / x + 1) :=
        calc n = x * (n / x) + n % x := (Nat.div_add_mod n x).symm
          _ < x * (n / x) + x := Nat.add_lt_add_left hmod _
          _ = x * (n / x + 1) := (Nat.mul_succ x (n / x)).symm
      exact hlt.le
    · intro m hm
      by_contra hcon
      have hmle : m ≤ n / x := by omega
      have : x * m ≤ x * (n / x) := Nat.mul_le_mul_left x hmle
      exact absurd (le_trans hm this) (not_le.mpr hc)
  · rw [if_neg hc]
    refine ⟨not_lt.mp hc, ?_⟩
    intro m hm
    calc n / x ≤ x * m / x := Nat.div_le_div_right hm
      _ = m := Nat.mul_div_cancel_left m hx

lemma block_off_lt {j j' pad h u : ℕ} (hjj : j < j') (hu : u < h) :
    j * pad + j * h + u < j' * pad + j' * h := by
  have e1 : j * pad + j * h + u < (j + 1) * pad + (j + 1) * h := by
    have e0 : j * pad + j * h + u < j * pad + j * h + (pad + h) :=
      Nat.add_lt_add_left (by omega) _
    calc j * pad + j * h + u < j * pad + j * h + (pad + h) := e0
      _ = (j + 1) * pad + (j + 1) * h := by ring
  exact lt_of_lt_of_le e1 (Nat.add_le_add
    (Nat.mul_le_mul_right pad hjj) (Nat.mul_le_mul_right h hjj))

lemma block_end_le {j j' pad h : ℕ} (hjj : j' < j) :
    j' * pad + j' * h + h ≤ j * pad + j * h := by
  have e1 : j' * pad + j' * h + h ≤ (j' + 1) * pad + (j' + 1) * h := by
    calc j' * pad + j' * h + h ≤ j' * pad + j' * h + (pad + h) := by omega
      _ = (j' + 1) * pad + (j' + 1) * h := by ring
  exact le_trans e1 (Nat.add_le_add
    (Nat.mul_le_mul_right pad hjj) (Nat.mul_le_mul_right h hjj))

lemma not_in_other_block {x h w pad k k' u v : ℕ} (hx : 0 < x)
    (hne : k' ≠ k) (hu : u < h) (hv : v < w) :
    ¬(k' / x * pad + k' / x * h ≤ k / x * pad + k / x * h + u ∧
      k / x * pad + k / x * h + u < k' / x * pad + k' / x * h + h ∧
      k' % x * pad + k' % x * w ≤ k % x * pad + k % x * w + v ∧
      k % x * pad + k % x * w + v < k' % x * pad + k' % x * w + w) := by
  rintro ⟨hr1, hr2, hc1, hc2⟩
  rcases lt_trichotomy (k / x) (k' / x) with hj | hj | hj
  · exact absurd hr1 (not_le.mpr (block_off_lt hj hu))
  · rcases lt_trichotomy (k % x) (k' % x) with hi | hi | hi
    · exact absurd hc1 (not_le.mpr (block_off_lt hi hv))
    · refine hne ?_
      calc k' = x * (k' / x) + k' % x := (Nat.div_add_mod k' x).symm
        _ = x * (k / x) + k % x := by rw [hj, hi]
        _ = k := Nat.div_add_mod k x
    · exact absurd hc2 (not_lt.mpr
        (le_trans (block_end_le hi) (Nat.le_add_right _ _)))
  · exact absurd hr2 (not_lt.mpr
      (le_trans (block_end_le hj) (Nat.le_add_right _ _)))

lemma writeBlock_in (img : ℕ → ℕ → ℝ) (r0 c0 h w : ℕ) (s : ℕ → ℕ → ℝ)
    {u v : ℕ} (hu : u < h) (hv : v < w) :
    writeBlock img r0 c0 h w s (r0 + u) (c0 + v) = s u v := by
  simp only [writeBlock]
  rw [if_pos ⟨Nat.le_add_right _ _, Nat.add_lt_add_left hu _,
    Nat.le_add_right _ _, Nat.add_lt_add_left hv _⟩,
    Nat.add_sub_cancel_left, Nat.add_sub_cancel_left]

lemma writeBlock_out (img : ℕ → ℕ → ℝ) (r0 c0 h w : ℕ) (s : ℕ → ℕ → ℝ)
    {r c : ℕ} (hout : ¬(r0 ≤ r ∧ r < r0 + h ∧ c0 ≤ c ∧ c < c0 + w)) :
    writeBlock img r0 c0 h w s r c = img r c := by
  simp only [writeBlock]
  rw [if_neg hout]

lemma writeBlock_cases (img : ℕ → ℕ → ℝ) (r0 c0 h w : ℕ) (s : ℕ → ℕ → ℝ)
    (r c : ℕ) :
    writeBlock img r0 c0 h w s r c = img r c ∨
    ∃ u v, u < h ∧ v < w ∧ writeBlock img r0 c0 h w s r c = s u v := by
  by_cases hcond : r0 ≤ r ∧ r < r0 + h ∧ c0 ≤ c ∧ c < c0 + w
  · right
    refine ⟨r - r0, c - c0, by omega, by omega, ?_⟩
    simp only [writeBlock]
    rw [if_pos hcond]
  · left
    exact writeBlock_out img r0 c0 h w s hcond

lemma layoutFold_succ (m x h w pad : ℕ) (S : ℕ → ℕ → ℕ → ℝ) :
    layoutFold (m + 1) x h w pad S
      = writeBlock (layoutFold m x h w pad S)
          (m / x * pad + m / x * h) (m % x * pad + m % x * w) h w (S m) := by
  rw [layoutFold, layoutFold, List.range_succ, List.foldl_append,
    List.foldl_cons, List.foldl_nil]

lemma layoutFold_at_block {x h w pad : ℕ} (S : ℕ → ℕ → ℕ → ℝ) (hx : 0 < x) :
    ∀ n k u v, k < n → u < h → v < w →
      layoutFold n x h w pad S
          (k / x * pad + k / x * h + u) (k % x * pad + k % x * w + v)
        = S k u v := by
  intro n
  induction n with
  | zero => intro k u v hk _ _; omega
  | succ m ih =>
    intro k u v hk hu hv
    rw [layoutFold_succ]
    by_cases hkm : k = m
    · subst hkm
      exact writeBlock_in _ _ _ _ _ _ hu hv
    · rw [writeBlock_out _ _ _ _ _ _ (not_in_other_block hx
        (fun hmk => hkm hmk.symm) hu hv)]
      exact ih k u v (by omega) hu hv

lemma layoutFold_mem {x h w pad : ℕ} (S : ℕ → ℕ → ℕ → ℝ) :
    ∀ n r c, layoutFold n x h w pad S r c = 0 ∨
      ∃ k u v, k < n ∧ u < h ∧ v < w ∧
        layoutFold n x h w pad S r c = S k u v := by
  intro n
  induction n with
  | zero => intro r c; left; rfl
  | succ m ih =>
    intro r c
    rw [layoutFold_succ]
    rcases writeBlock_cases (layoutFold m x h w pad S)
        (m / x * pad + m / x * h) (m % x * pad + m % x * w) h w (S m) r c with
      heq | ⟨u, v, hu, hv, heq⟩
    · rw [heq]
      rcases ih r c with h0 | ⟨k, u, v, hk, hu, hv, hval⟩
      · exact Or.inl h0
      · exact Or.inr ⟨k, u, v, Nat.lt_succ_of_lt hk, hu, hv, hval⟩
    · exact Or.inr ⟨m, u, v, Nat.lt_succ_self m, hu, hv, heq⟩

lemma amin_le_entry {n h w : ℕ} (X : ℕ → ℕ → ℕ → ℝ) {i r c : ℕ}
    (hi : i < n) (hr : r < h) (hc : c < w) : amin n h w X ≤ X i r c :=
  listMin_le (mem_entries X hi hr hc)

lemma entry_le_amax {n h w : ℕ} (X : ℕ → ℕ → ℕ → ℝ) {i r c : ℕ}
    (hi : i < n) (hr : r < h) (hc : c < w) : X i r c ≤ amax n h w X :=
  le_listMax (mem_entries X hi hr hc)

lemma mosaicDenom_pos {n h w : ℕ} (X : ℕ → ℕ → ℕ → ℝ)
    {i₁ r₁ c₁ i₂ r₂ c₂ : ℕ}
    (hi₁ : i₁ < n) (hr₁ : r₁ < h) (hc₁ : c₁ < w)
    (hi₂ : i₂ < n) (hr₂ : r₂ < h) (hc₂ : c₂ < w)
    (hne : X i₁ r₁ c₁ ≠ X i₂ r₂ c₂) : 0 < mosaicDenom n h w X := by
  have h1 := amin_le_entry X hi₁ hr₁ hc₁
  have h2 := amin_le_entry X hi₂ hr₂ hc₂
  have h3 := entry_le_amax X hi₁ hr₁ hc₁
  have h4 := entry_le_amax X hi₂ hr₂ hc₂
  rw [mosaicDenom]
  rcases lt_or_gt_of_ne hne with hlt | hgt
  · linarith
  · linarith

lemma ceilSqrt_four : ceilSqrt 4 = 2 := by
  have h := ceilSqrt_spec (show 0 < 4 by decide)
  have hle : ceilSqrt 4 ≤ 2 := h.2 2 (by norm_num)
  have hge : 2 ≤ ceilSqrt 4 := by nlinarith [h.1]
  omega

lemma mosaic_vis_4_8_d0 (X : ℕ → ℕ → ℕ → ℝ) :
    (mosaic_vis 4 8 8 X 0).d0 = 16 := by
  show 8 * mosaicRows 4 (ceilSqrt 4) + (mosaicRows 4 (ceilSqrt 4) - 1) * 0 = 16
  rw [ceilSqrt_four]
  decide

lemma mosaic_vis_4_8_d1 (X : ℕ → ℕ → ℕ → ℝ) :
    (mosaic_vis 4 8 8 X 0).d1 = 16 := by
  show 8 * ceilSqrt 4 + (ceilSqrt 4 - 1) * 0 = 16
  rw [ceilSqrt_four]

/-- C8: the function `mosaic_vis` on a `(n, h, w)` batch with at least two distinct pixel
values uses `ceil(sqrt(n))` columns and the least row count `y` with
`columns·y ≥ n`, returns an image of shape
`(h·y + (y-1)·pad, w·x + (x-1)·pad)`, places the min-max-normalized tile `k`
at row offset `(k div x)·(pad+h)` and column offset `(k mod x)·(pad+w)`
(row-major order), and every pixel of the image lies in `[0, 1]`. -/
theorem C8_mosaic_vis_layout (n h w pad : ℕ) (X : ℕ → ℕ → ℕ → ℝ)
    (hn : 0 < n) (hh : 0 < h) (hw : 0 < w)
    (i₁ r₁ c₁ i₂ r₂ c₂ : ℕ) (hi₁ : i₁ < n) (hr₁ : r₁ < h) (hc₁ : c₁ < w)
    (hi₂ : i₂ < n) (hr₂ : r₂ < h) (hc₂ : c₂ < w)
    (hne : X i₁ r₁ c₁ ≠ X i₂ r₂ c₂) :
    (n ≤ ceilSqrt n ^ 2 ∧ ∀ m, n ≤ m ^ 2 → ceilSqrt n ≤ m) ∧
    (n ≤ ceilSqrt n * mosaicRows n (ceilSqrt n) ∧
      ∀ m, n ≤ ceilSqrt n * m → mosaicRows n (ceilSqrt n) ≤ m) ∧
    (mosaic_vis n h w X pad).d0
      = h * mosaicRows n (ceilSqrt n) + (mosaicRows n (ceilSqrt n) - 1) * pad ∧
    (mosaic_vis n h w X pad).d1
      = w * ceilSqrt n + (ceilSqrt n - 1) * pad ∧
    (∀ k u v, k < n → u < h → v < w →
      (mosaic_vis n h w X pad).data
          (k / ceilSqrt n * pad + k / ceilSqrt n * h + u)
          (k % ceilSqrt n * pad + k % ceilSqrt n * w + v)
        = (X k u v - amin n h w X) / mosaicDenom n h w X) ∧
    (∀ r c, 0 ≤ (mosaic_vis n h w X pad).data r c ∧
      (mosaic_vis n h w X pad).data r c ≤ 1) := by
  have hx : 0 < ceilSqrt n := ceilSqrt_pos hn
  have hdenom : 0 < mosaicDenom n h w X :=
    mosaicDenom_pos X hi₁ hr₁ hc₁ hi₂ hr₂ hc₂ hne
  refine ⟨ceilSqrt_spec hn, mosaicRows_spec hx, rfl, rfl, ?_, ?_⟩
  · intro k u v hk hu hv
    exact layoutFold_at_block _ hx n k u v hk hu hv
  · intro r c
    rcases layoutFold_mem
        (fun k u v => (X k u v - amin n h w X) / mosaicDenom n h w X)
        n r c with h0 | ⟨k, u, v, hk, hu, hv, hval⟩
    · show 0 ≤ layoutFold n (ceilSqrt n) h w pad _ r c ∧
        layoutFold n (ceilSqrt n) h w pad _ r c ≤ 1
      rw [h0]
      exact ⟨le_refl 0, zero_le_one⟩
    · show 0 ≤ layoutFold n (ceilSqrt n) h w pad _ r c ∧
        layoutFold n (ceilSqrt n) h w pad _ r c ≤ 1
      rw [hval]
      constructor
      · exact div_nonneg (sub_nonneg.mpr (amin_le_entry X hk hu hv)) hdenom.le
      · rw [div_le_one hdenom, mosaicDenom]
        have := entry_le_amax X hk hu hv
        linarith

theorem C8_mosaic_vis_layout_witness :
    0 < 4 ∧ ceilSqrt 4 = 2 ∧ mosaicRows 4 (ceilSqrt 4) = 2 ∧
    (mosaic_vis 4 8 8
      (fun i u v => if i = 0 ∧ u = 0 ∧ v = 0 then (1:ℝ) else 0) 0).d0 = 16 ∧
    (mosaic_vis 4 8 8
      (fun i u v => if i = 0 ∧ u = 0 ∧ v = 0 then (1:ℝ) else 0) 0).d1 = 16 ∧
    ((fun i u v => if i = 0 ∧ u = 0 ∧ v = 0 then (1:ℝ) else 0) 0 0 0
      ≠ (fun i u v => if i = 0 ∧ u = 0 ∧ v = 0 then (1:ℝ) else 0) 1 0 0) ∧
    (∀ r c, 0 ≤ (mosaic_vis 4 8 8
        (fun i u v => if i = 0 ∧ u = 0 ∧ v = 0 then (1:ℝ) else 0) 0).data r c ∧
      (mosaic_vis 4 8 8
        (fun i u v => if i = 0 ∧ u = 0 ∧ v = 0 then (1:ℝ) else 0) 0).data r c
        ≤ 1) :=
  ⟨by decide, ceilSqrt_four, by rw [ceilSqrt_four]; decide,
    mosaic_vis_4_8_d0 _, mosaic_vis_4_8_d1 _, by norm_num,
    (C8_mosaic_vis_layout 4 8 8 0
      (fun i u v => if i = 0 ∧ u = 0 ∧ v = 0 then (1:ℝ) else 0)
      (by decide) (by decide) (by decide) 0 0 0 1 0 0
      (by decide) (by decide) (by decide) (by decide) (by decide) (by decide)
      (by norm_num)).2.2.2.2.2⟩

end NumpyUtility

end
